import Mathlib

/-!
Verification of the command-aggregation and configuration-merge layer of the
gemini-cli repository, as a shallow embedding in Lean 4.

Embedded source functions:
* `deepMerge` (packages/core/src/utils/merge.ts): recursive structural merge of
  two configuration objects.  JSON-like values are modelled by `JVal`, objects
  by insertion-ordered association lists (`JObj`); `undefined` arguments are
  modelled by `Option`.
* `CommandService.reloadCommands` (the command aggregator): the loader-result
  aggregation loop (`Promise.allSettled` post-processing), the name-collision
  deduplication loop over a JS `Map`, the abort-controller bookkeeping of
  overlapping reloads, and the listener (subscribe/notify) registry.
  JS `Map` insertion-order semantics are modelled by association lists with
  in-place update (`mapSet`).
* `parseSlashCommand` (packages/cli/src/utils/commands.ts): only its test suite
  is present in the sources, so the resolver itself is modelled from the spec
  (see `parseSlashCommand` below).
-/

/-! ## JSON-like values and objects (for merge.ts) -/

inductive JVal where
  | nullv : JVal
  | boolv (b : Bool) : JVal
  | numv (n : Int) : JVal
  | strv (s : String) : JVal
  | arrv (elems : List JVal) : JVal
  | objv (fields : List (String × JVal)) : JVal

abbrev JObj := List (String × JVal)

/-- `isObject` from merge.ts: `!!item && typeof item === 'object' && !Array.isArray(item)`.
Of the modelled value kinds only a non-array, non-null object satisfies it. -/
def JVal.isObject : JVal → Bool
  | .objv _ => true
  | _ => false

/-- Lookup of a key in a JS object modelled as an insertion-ordered
association list (first occurrence wins; real JS objects have unique keys). -/
def getKey? (m : JObj) (k : String) : Option JVal :=
  (m.find? (fun p => p.1 == k)).map (fun p => p.2)

/-- Whether the object has the key (`key in obj`). -/
def keyMem (m : JObj) (k : String) : Bool :=
  m.any (fun p => p.1 == k)

theorem sizeOf_getKey? {m : JObj} {k : String} {v : JVal} (h : getKey? m k = some v) :
    sizeOf v < sizeOf m := by
  unfold getKey? at h
  rcases hf : m.find? (fun p => p.1 == k) with _ | p
  · rw [hf] at h; simp at h
  · rw [hf] at h
    simp only [Option.map_some'] at h
    have hm : p ∈ m := List.mem_of_find?_eq_some hf
    have := List.sizeOf_lt_of_mem hm
    cases p with
    | mk a b =>
      simp at this h
      subst h
      simp
      omega

/-!
`deepMerge` (merge.ts) builds a fresh result object and folds first the target
and then the source into it (`mergeIntoResult`), setting each key in place.
Because JS objects have unique keys, by the time a source key `k` is folded in,
`result[k]` is exactly `target[k]` (the target fold never recursed, since it
started from an empty result); so the result is: the target's entries in target
order, with the value at `k` replaced by the recursive merge (when both values
are non-array objects) or by the source value (otherwise) whenever the source
also has `k`, followed by the source-only entries in source order.  The three
mutually recursive functions below compute exactly that.
-/

mutual

/-- Value-level conflict resolution of merge.ts: recursive merge when both
values satisfy `isObject`, otherwise the source value replaces the target. -/
def deepMergeVal (tv sv : JVal) : JVal :=
  match tv, sv with
  | .objv tf, .objv sf => .objv (deepMergeObj tf sf)
  | _, _ => sv
termination_by sizeOf tv + sizeOf sv
decreasing_by all_goals (simp; omega)

/-- The target's entries, each resolved against the source's value at the same
key (the in-place `result[key] = ...` updates of `mergeIntoResult(source)`). -/
def mergeKept (t s : JObj) : JObj :=
  match t with
  | [] => []
  | (k, tv) :: rest =>
    (k, match h : getKey? s k with
        | some sv => deepMergeVal tv sv
        | none => tv) :: mergeKept rest s
termination_by sizeOf t + sizeOf s
decreasing_by
  all_goals simp
  all_goals (have hlt := sizeOf_getKey? h; omega)

/-- Merge of two defined objects: resolved target entries followed by the
source-only entries (appended by `result[key] = objValue` on fresh keys). -/
def deepMergeObj (t s : JObj) : JObj :=
  mergeKept t s ++ s.filter (fun q => !(t.any (fun p => p.1 == q.1)))
termination_by sizeOf t + sizeOf s + 1
decreasing_by all_goals simp

end

/-- `deepMerge(target, source)` of merge.ts, with `undefined` arguments modelled
by `none` (`mergeIntoResult` returns early on an absent argument). -/
def deepMerge (target source : Option JObj) : JObj :=
  deepMergeObj (target.getD []) (source.getD [])

/-! ## Slash commands and the aggregator's deduplication loop
(CommandService.reloadCommands / CommandService.create) -/

/-- A `SlashCommand` (packages/cli/src/ui/commands/types.ts), restricted to the
fields the aggregator and resolver read: `name`, `description`, `kind`,
`altNames` (aliases), `extensionName` (origin tag of extension-provided
commands, absent otherwise) and the nested `subCommands` tree. -/
inductive SlashCommand where
  | mk (name : String) (description : String) (kind : String)
      (altNames : List String) (extensionName : Option String)
      (subCommands : List SlashCommand) : SlashCommand

def SlashCommand.name : SlashCommand → String
  | .mk n _ _ _ _ _ => n

def SlashCommand.description : SlashCommand → String
  | .mk _ d _ _ _ _ => d

def SlashCommand.kind : SlashCommand → String
  | .mk _ _ k _ _ _ => k

def SlashCommand.altNames : SlashCommand → List String
  | .mk _ _ _ a _ _ => a

def SlashCommand.extensionName : SlashCommand → Option String
  | .mk _ _ _ _ e _ => e

def SlashCommand.subCommands : SlashCommand → List SlashCommand
  | .mk _ _ _ _ _ s => s

/-- The spread-copy `{ ...cmd, name: finalName }`: a fresh command equal to
`c` in every field except `name`. -/
def SlashCommand.withName (c : SlashCommand) (n : String) : SlashCommand :=
  .mk n c.description c.kind c.altNames c.extensionName c.subCommands

/-- The aggregator's `commandMap`, a JS `Map<string, SlashCommand>` modelled as
an insertion-ordered association list. -/
abbrev CommandMap := List (String × SlashCommand)

/-- `Map.has`. -/
def mapHas (m : CommandMap) (k : String) : Bool :=
  m.any (fun p => p.1 == k)

/-- `Map.set`: replaces the value in place if the key is present (keeping its
insertion position), otherwise appends the new binding. -/
def mapSet (m : CommandMap) (k : String) (v : SlashCommand) : CommandMap :=
  if mapHas m k then m.map (fun p => if p.1 == k then (k, v) else p)
  else m ++ [(k, v)]

/-- Decimal digit characters of a natural number, most significant first;
`fuel` makes the recursion structural (any `fuel > n` is enough, since the
value strictly shrinks on division by ten). -/
def digitCharsAux : Nat → Nat → List Char
  | 0, _ => []
  | fuel + 1, n =>
    if n < 10 then [Char.ofNat (48 + n)]
    else digitCharsAux fuel (n / 10) ++ [Char.ofNat (48 + n % 10)]

/-- Decimal rendering of a natural number, as JS string interpolation
`${suffix}` renders it. -/
def natToDigitChars (n : Nat) : List Char :=
  digitCharsAux (n + 1) n

def natToDecimal (n : Nat) : String :=
  String.mk (natToDigitChars n)

/-- Numeric value of a decimal digit character. -/
def digitVal (c : Char) : Nat := c.toNat - 48

/-- Value of a most-significant-first decimal digit character list. -/
def digitsVal (l : List Char) : Nat :=
  l.foldl (fun a c => a * 10 + digitVal c) 0

/-- The `suffix`-th candidate name tried by the collision-rename loop:
`extensionName.name` first, then `extensionName.name1`, `extensionName.name2`,
etc. -/
def candidateName (ext nm : String) : Nat → String
  | 0 => ext ++ "." ++ nm
  | j + 1 => ext ++ "." ++ nm ++ natToDecimal (j + 1)

/-- The `while (commandMap.has(renamedName))` loop of the deduplication step.
`fuel` bounds the iteration count for Lean's sake only; it is called with more
fuel than the map has keys, which the rename theorems prove sufficient. -/
def renameWhile (m : CommandMap) : Nat → String → String → String → Nat → String
  | 0, renamed, _, _, _ => renamed
  | fuel + 1, renamed, ext, nm, suffix =>
    if mapHas m renamed then
      renameWhile m fuel (ext ++ "." ++ nm ++ natToDecimal suffix) ext nm (suffix + 1)
    else renamed

/-- The `finalName` computed for a command by the deduplication loop body:
an extension command whose name is already taken is renamed by the while loop,
every other command keeps its name. -/
def dedupFinalName (m : CommandMap) (c : SlashCommand) : String :=
  match c.extensionName with
  | some ext =>
    if mapHas m c.name then
      renameWhile m (m.length + 1) (ext ++ "." ++ c.name) ext c.name 1
    else c.name
  | none => c.name

/-- One iteration of `for (const cmd of allCommands)`:
`commandMap.set(finalName, { ...cmd, name: finalName })`. -/
def dedupStep (m : CommandMap) (c : SlashCommand) : CommandMap :=
  mapSet m (dedupFinalName m c) (c.withName (dedupFinalName m c))

/-- The whole deduplication loop, starting from the empty `Map`. -/
def dedupCommands (cs : List SlashCommand) : CommandMap :=
  cs.foldl dedupStep []

/-- The published snapshot: `Array.from(commandMap.values())`. -/
def publishSnapshot (cs : List SlashCommand) : List SlashCommand :=
  (dedupCommands cs).map (fun p => p.2)

/-! ## Loader-result aggregation (Promise.allSettled post-processing) -/

/-- The reason a loader's promise was rejected with, restricted to what the
aggregator inspects: whether it is an `Error` instance and its `name`. -/
structure RejectReason where
  isErrorInstance : Bool
  errName : String

/-- One settled entry of `Promise.allSettled(loaders.map(l => l.loadCommands(signal)))`. -/
inductive LoaderResult where
  | fulfilled (cmds : List SlashCommand) : LoaderResult
  | rejected (reason : RejectReason) : LoaderResult

def LoaderResult.isFulfilled : LoaderResult → Bool
  | .fulfilled _ => true
  | .rejected _ => false

/-- The aggregator's abort test on a rejection:
`result.reason instanceof Error && result.reason.name === 'AbortError'`. -/
def isAbortReason (r : RejectReason) : Bool :=
  r.isErrorInstance && r.errName == "AbortError"

/-- The `for (const result of results)` loop of `reloadCommands`:
fulfilled loaders contribute their commands to `allCommands`; a rejection that
passes the abort test is skipped silently; every other rejection is logged
(the second component collects the `debugLogger.debug` calls). -/
def collectResults (results : List LoaderResult) : List SlashCommand × List RejectReason :=
  results.foldl
    (fun acc r =>
      match r with
      | .fulfilled cs => (acc.1 ++ cs, acc.2)
      | .rejected reason =>
        if isAbortReason reason then acc else (acc.1, acc.2 ++ [reason]))
    ([], [])

/-! ## Command resolution (query-time) -/

/-- Strip leading and trailing whitespace from a character list
(`String.trim`), written structurally so that terms evaluate by `rfl`. -/
def trimChars (l : List Char) : List Char :=
  ((l.dropWhile Char.isWhitespace).reverse.dropWhile Char.isWhitespace).reverse

/-- Split a character list on whitespace, collapsing runs of whitespace, into
non-empty tokens; `cur` accumulates the current token in reverse. -/
def tokensAux : List Char → List Char → List String
  | [], cur => if cur.isEmpty then [] else [String.mk cur.reverse]
  | c :: rest, cur =>
    if c.isWhitespace then
      if cur.isEmpty then tokensAux rest []
      else String.mk cur.reverse :: tokensAux rest []
    else tokensAux rest (c :: cur)

/-- Split an input on whitespace, collapsing runs of whitespace into single
token boundaries. -/
def tokenize (s : String) : List String :=
  tokensAux s.data []

/-- Join tokens back into the argument string with single separating spaces
(the surviving inner text of the raw remainder, with leading/trailing
whitespace trimmed and whitespace runs collapsed, as `tokenize` produced it). -/
def joinTokens : List String → String
  | [] => ""
  | [t] => t
  | t :: rest => t ++ " " ++ joinTokens rest

/-- Resolve one token against a lookup over a command list: a command matches
by its `name` or by one of its `altNames`; the first match wins. -/
def findCommand (cmds : List SlashCommand) (tok : String) : Option SlashCommand :=
  cmds.find? (fun c => c.name == tok || c.altNames.contains tok)

/-- The result of `parseSlashCommand`: the deepest resolved command (if any),
the canonical path of names from root to it, and the argument string. -/
structure ParseResult where
  commandToExecute : Option SlashCommand
  canonicalPath : List String
  args : String

/-- Descend through nested lookups while tokens continue to match, returning
the deepest resolved command, the canonical path so far and the unconsumed
tokens. -/
def descendCommands (cmd : SlashCommand) (path : List String) (toks : List String) :
    SlashCommand × List String × List String :=
  match toks with
  | [] => (cmd, path, [])
  | t :: rest =>
    match findCommand cmd.subCommands t with
    | some child => descendCommands child (path ++ [child.name]) rest
    | none => (cmd, path, t :: rest)

/-- Modelled from the spec: the implementation of `parseSlashCommand`
(packages/cli/src/utils/commands.ts) is absent from the sources (only its test
suite is present), so this definition follows the spec of command resolution,
4.5: trim the input; an input that is empty, lacks the `/`
command prefix, or is only the prefix resolves to no command with an empty
argument string; otherwise split on whitespace (collapsing runs), resolve the
first token against the top-level lookup by name or alias, descend through
nested lookups while tokens match, and return the deepest resolved command,
the canonical path of names from root to it, and the unconsumed remainder
(whitespace-trimmed) as the argument string; an unresolved first token is
returned, with the remainder, as the argument string of a commandless result. -/
def parseSlashCommand (query : String) (cmds : List SlashCommand) : ParseResult :=
  match trimChars query.data with
  | '/' :: afterSlash =>
    (match tokensAux afterSlash [] with
     | [] => ⟨none, [], ""⟩
     | t :: rest =>
       match findCommand cmds t with
       | none => ⟨none, [], joinTokens (t :: rest)⟩
       | some c =>
         let d := descendCommands c [c.name] rest
         ⟨some d.1, d.2.1, joinTokens d.2.2⟩)
  | _ => ⟨none, [], ""⟩

/-- A witness that `path` is the canonical name path from the root command set
to command `c`: the chain starts at a top-level command and each step descends
into a `subCommands` child, recording each command's own `name`. -/
inductive ChainTo (root : List SlashCommand) : SlashCommand → List String → Prop where
  | head {c : SlashCommand} : c ∈ root → ChainTo root c [c.name]
  | child {c d : SlashCommand} {p : List String} :
      ChainTo root c p → d ∈ c.subCommands → ChainTo root d (p ++ [d.name])

/-! ## Overlapping reloads and the internal abort controller -/

/-- An `AbortSignal` as the aggregator distinguishes them: the signal of an
internally-created `AbortController` (identified by a creation generation) or
a caller-supplied external signal (identified abstractly). -/
inductive AggSignal where
  | internalSig (gen : Nat) : AggSignal
  | externalSig (id : Nat) : AggSignal

/-- The aggregator state relevant to `reloadCommands`: the id that the next
internally-created `AbortController` would get, the current internal
controller (if any), the set of controllers that have been aborted, the
published command array, and how many times `notifyListeners` ran. -/
structure AggState where
  nextGen : Nat
  currentCtrl : Option Nat
  abortedGens : List Nat
  commands : List SlashCommand
  notifyCount : Nat

/-- Whether `signal.aborted` reads true in a state (`extAborted` gives the
environment-controlled status of external signals). -/
def sigAborted (st : AggState) (extAborted : Nat → Bool) : AggSignal → Bool
  | .internalSig g => st.abortedGens.contains g
  | .externalSig i => extAborted i

/-- The synchronous head of `reloadCommands(externalSignal?)`, up to the
`await Promise.allSettled`: without an external signal it aborts the current
internal controller (if any) and installs a fresh one whose signal is used;
with an external signal it touches nothing and uses that signal. -/
def reloadPrologue (ext : Option Nat) (st : AggState) : AggSignal × AggState :=
  match ext with
  | some i => (.externalSig i, st)
  | none =>
    let aborted :=
      match st.currentCtrl with
      | some g => st.abortedGens ++ [g]
      | none => st.abortedGens
    (.internalSig st.nextGen,
     { st with
        abortedGens := aborted
        currentCtrl := some st.nextGen
        nextGen := st.nextGen + 1 })

/-- The continuation of `reloadCommands` after its loaders settle: if the
call's signal is aborted it returns without touching the snapshot or the
listeners; otherwise it publishes the deduplicated snapshot and notifies. -/
def reloadEpilogue (sig : AggSignal) (extAborted : Nat → Bool)
    (results : List LoaderResult) (st : AggState) : AggState :=
  if sigAborted st extAborted sig then st
  else
    { st with
        commands := publishSnapshot (collectResults results).1
        notifyCount := st.notifyCount + 1 }

/-! ## The listener registry (subscribe / notifyListeners) -/

/-- Events observable at the listener registry: a listener subscribing,
an unsubscribe capability being invoked, and a snapshot being published
(`notifyListeners`). Listeners are identified by numbers. -/
inductive SubEvent where
  | sub (l : Nat) : SubEvent
  | unsub (l : Nat) : SubEvent
  | publish : SubEvent
deriving DecidableEq

/-- One step of the registry state (`listeners: Set<() => void>`):
`subscribe` is `Set.add` (a no-op on a present member), the unsubscribe
capability is `Set.delete`, and a publish leaves the set unchanged. -/
def subStep (ls : List Nat) : SubEvent → List Nat
  | .sub l => if l ∈ ls then ls else ls ++ [l]
  | .unsub l => ls.erase l
  | .publish => ls

def runEvents (ls : List Nat) (evs : List SubEvent) : List Nat :=
  evs.foldl subStep ls

/-- How many times listener `l` is invoked over a run of events: each publish
invokes every currently-registered listener once per registry occurrence. -/
def invocations (l : Nat) (ls : List Nat) : List SubEvent → Nat
  | [] => 0
  | e :: es =>
    (match e with
     | .publish => ls.count l
     | _ => 0) + invocations l (subStep ls e) es

/-- The number of published snapshots in an event run. -/
def publishCount (evs : List SubEvent) : Nat :=
  evs.count .publish

/-! # Theorems -/

/-! ## merge.ts lemmas -/

theorem getKey?_nil (k : String) : getKey? [] k = none := rfl

theorem getKey?_cons (k₀ : String) (v : JVal) (t : JObj) (k : String) :
    getKey? ((k₀, v) :: t) k = if k₀ == k then some v else getKey? t k := by
  unfold getKey?
  cases h : (k₀ == k) <;> simp [List.find?, h]

theorem keyMem_eq_false_iff (m : JObj) (k : String) :
    keyMem m k = false ↔ getKey? m k = none := by
  unfold keyMem getKey?
  simp [List.any_eq_true, List.find?_eq_none]

theorem getKey?_append (a b : JObj) (k : String) :
    getKey? (a ++ b) k = (getKey? a k).or (getKey? b k) := by
  unfold getKey?
  rw [List.find?_append]
  rcases h : a.find? (fun p => p.1 == k) with _ | p <;> simp [h]

theorem mergeKept_nil_right (t : JObj) : mergeKept t [] = t := by
  induction t with
  | nil => rw [mergeKept]
  | cons hd rest ih =>
    cases hd with
    | mk k tv => rw [mergeKept, ih]; rfl

theorem getKey?_mergeKept (t s : JObj) (k : String) :
    getKey? (mergeKept t s) k =
      (getKey? t k).map (fun tv =>
        match getKey? s k with
        | some sv => deepMergeVal tv sv
        | none => tv) := by
  induction t with
  | nil => rw [mergeKept]; rfl
  | cons hd rest ih =>
    cases hd with
    | mk k₀ tv =>
      rw [mergeKept]
      rcases hk : (k₀ == k) with _ | _
      · rw [getKey?_cons, getKey?_cons, hk]
        simp only [Bool.false_eq_true, if_false]
        exact ih
      · have hk' : k₀ = k := by simpa using hk
        subst hk'
        rw [getKey?_cons, getKey?_cons, hk]
        simp only [if_true]
        rcases hs : getKey? s k₀ with _ | sv <;> simp

theorem getKey?_filter_of_true {p : String × JVal → Bool} {l : JObj} {k : String}
    (h : ∀ x ∈ l, x.1 = k → p x = true) :
    getKey? (l.filter p) k = getKey? l k := by
  induction l with
  | nil => rfl
  | cons hd rest ih =>
    have hrest : ∀ x ∈ rest, x.1 = k → p x = true := fun x hx => h x (List.mem_cons_of_mem _ hx)
    rcases hk : (hd.1 == k) with _ | _
    · rcases hp : p hd with _ | _
      · rw [List.filter_cons_of_neg (by simp [hp]), ih hrest]
        cases hd with
        | mk a b =>
          rw [getKey?_cons, hk]
          simp
      · rw [List.filter_cons_of_pos hp]
        cases hd with
        | mk a b =>
          rw [getKey?_cons, getKey?_cons, hk]
          simp only [Bool.false_eq_true, if_false]
          exact ih hrest
    · have hk' : hd.1 = k := by simpa using hk
      have hp : p hd = true := h hd (List.mem_cons_self _ _) hk'
      rw [List.filter_cons_of_pos hp]
      cases hd with
      | mk a b =>
        rw [getKey?_cons, getKey?_cons, hk]
        simp

theorem getKey?_filter_of_false {p : String × JVal → Bool} {l : JObj} {k : String}
    (h : ∀ x ∈ l, x.1 = k → p x = false) :
    getKey? (l.filter p) k = none := by
  induction l with
  | nil => rfl
  | cons hd rest ih =>
    have hrest : ∀ x ∈ rest, x.1 = k → p x = false := fun x hx => h x (List.mem_cons_of_mem _ hx)
    rcases hk : (hd.1 == k) with _ | _
    · rcases hp : p hd with _ | _
      · rw [List.filter_cons_of_neg (by simp [hp])]
        exact ih hrest
      · rw [List.filter_cons_of_pos hp]
        cases hd with
        | mk a b =>
          rw [getKey?_cons, hk]
          simp only [Bool.false_eq_true, if_false]
          exact ih hrest
    · have hk' : hd.1 = k := by simpa using hk
      have := h hd (List.mem_cons_self _ _) hk'
      rcases hp : p hd with _ | _
      · rw [List.filter_cons_of_neg (by simp [hp])]
        exact ih hrest
      · rw [hp] at this; cases this

/-- Pointwise characterization of the object merge: at every key, the merged
object holds the target value (source absent), the source value (target
absent), or the value-level resolution of the two (both present). -/
theorem getKey?_deepMergeObj (t s : JObj) (k : String) :
    getKey? (deepMergeObj t s) k =
      match getKey? t k, getKey? s k with
      | none, r => r
      | some tv, none => some tv
      | some tv, some sv => some (deepMergeVal tv sv) := by
  rw [deepMergeObj, getKey?_append, getKey?_mergeKept]
  rcases ht : getKey? t k with _ | tv
  · have hmem : keyMem t k = false := (keyMem_eq_false_iff t k).mpr ht
    have hfilter : ∀ x ∈ s, x.1 = k → (!(t.any (fun p => p.1 == x.1))) = true := by
      intro x _ hx
      rw [hx]
      have : t.any (fun p => p.1 == k) = false := hmem
      simp [this]
    rw [getKey?_filter_of_true hfilter]
    simp
  · have hfilter : ∀ x ∈ s, x.1 = k → (!(t.any (fun p => p.1 == x.1))) = false := by
      intro x _ hx
      rw [hx]
      have hmem : keyMem t k = true := by
        cases hkm : keyMem t k with
        | false =>
          have hnone := (keyMem_eq_false_iff t k).mp hkm
          rw [hnone] at ht
          cases ht
        | true => rfl
      have : t.any (fun p => p.1 == k) = true := hmem
      simp [this]
    rw [getKey?_filter_of_false hfilter]
    rcases hs : getKey? s k with _ | sv <;> simp

theorem deepMergeVal_objv (tf sf : List (String × JVal)) :
    deepMergeVal (.objv tf) (.objv sf) = .objv (deepMergeObj tf sf) := by
  rw [deepMergeVal]

theorem deepMergeVal_src {tv sv : JVal} (h : (tv.isObject && sv.isObject) = false) :
    deepMergeVal tv sv = sv := by
  cases tv <;> cases sv
  case objv.objv tf sf => simp [JVal.isObject] at h
  all_goals rw [deepMergeVal]
  all_goals (intros; simp_all)

theorem deepMergeObj_nil_right (A : JObj) : deepMergeObj A [] = A := by
  rw [deepMergeObj, mergeKept_nil_right]
  simp

theorem deepMergeObj_nil_left (B : JObj) : deepMergeObj [] B = B := by
  rw [deepMergeObj, mergeKept]
  rw [List.filter_eq_self.mpr]
  · simp
  · intro a _
    simp

/-- Claim C5: keys present in only one of the two mappings pass through to
`deepMerge(target, source)` unchanged; on keys present in both, two non-array
mapping values are merged recursively, and in every other combination
(scalars, arrays, mixed) the source value replaces the target value, arrays
being replaced wholesale. -/
theorem deepMerge_pointwise_semantics (t s : JObj) (k : String) :
    (getKey? s k = none → getKey? (deepMerge (some t) (some s)) k = getKey? t k)
    ∧ (getKey? t k = none → getKey? (deepMerge (some t) (some s)) k = getKey? s k)
    ∧ (∀ tf sf, getKey? t k = some (.objv tf) → getKey? s k = some (.objv sf) →
        getKey? (deepMerge (some t) (some s)) k = some (.objv (deepMergeObj tf sf)))
    ∧ (∀ tv sv, getKey? t k = some tv → getKey? s k = some sv →
        (tv.isObject && sv.isObject) = false →
        getKey? (deepMerge (some t) (some s)) k = some sv)
    ∧ (∀ tl sl, getKey? t k = some (.arrv tl) → getKey? s k = some (.arrv sl) →
        getKey? (deepMerge (some t) (some s)) k = some (.arrv sl)) := by
  have base : getKey? (deepMerge (some t) (some s)) k =
      match getKey? t k, getKey? s k with
      | none, r => r
      | some tv, none => some tv
      | some tv, some sv => some (deepMergeVal tv sv) :=
    getKey?_deepMergeObj t s k
  refine ⟨?_, ?_, ?_, ?_, ?_⟩
  · intro hs
    rw [base, hs]
    rcases getKey? t k with _ | tv <;> rfl
  · intro ht
    rw [base, ht]
  · intro tf sf ht hs
    rw [base, ht, hs]
    simp only []
    rw [deepMergeVal_objv]
  · intro tv sv ht hs hno
    rw [base, ht, hs]
    simp only []
    rw [deepMergeVal_src hno]
  · intro tl sl ht hs
    rw [base, ht, hs]
    simp only []
    rw [deepMergeVal_src (by simp [JVal.isObject])]

/-- Witness for C5 at concrete inputs: a target-only key, a source-only key,
a recursively merged object key, an overridden scalar key and a wholesale
replaced array key. -/
theorem deepMerge_pointwise_semantics_witness :
    getKey? (deepMerge (some [("only", .numv 7), ("a", .objv [("x", .numv 1)]),
        ("n", .numv 1), ("arr", .arrv [.numv 1, .numv 2])])
        (some [("a", .objv [("y", .numv 2)]), ("n", .numv 5), ("arr", .arrv [.numv 9]),
        ("snew", .strv "s")])) "only" = some (.numv 7)
    ∧ getKey? (deepMerge (some [("only", .numv 7), ("a", .objv [("x", .numv 1)]),
        ("n", .numv 1), ("arr", .arrv [.numv 1, .numv 2])])
        (some [("a", .objv [("y", .numv 2)]), ("n", .numv 5), ("arr", .arrv [.numv 9]),
        ("snew", .strv "s")])) "snew" = some (.strv "s")
    ∧ getKey? (deepMerge (some [("only", .numv 7), ("a", .objv [("x", .numv 1)]),
        ("n", .numv 1), ("arr", .arrv [.numv 1, .numv 2])])
        (some [("a", .objv [("y", .numv 2)]), ("n", .numv 5), ("arr", .arrv [.numv 9]),
        ("snew", .strv "s")])) "a"
        = some (.objv (deepMergeObj [("x", .numv 1)] [("y", .numv 2)]))
    ∧ getKey? (deepMerge (some [("only", .numv 7), ("a", .objv [("x", .numv 1)]),
        ("n", .numv 1), ("arr", .arrv [.numv 1, .numv 2])])
        (some [("a", .objv [("y", .numv 2)]), ("n", .numv 5), ("arr", .arrv [.numv 9]),
        ("snew", .strv "s")])) "n" = some (.numv 5)
    ∧ getKey? (deepMerge (some [("only", .numv 7), ("a", .objv [("x", .numv 1)]),
        ("n", .numv 1), ("arr", .arrv [.numv 1, .numv 2])])
        (some [("a", .objv [("y", .numv 2)]), ("n", .numv 5), ("arr", .arrv [.numv 9]),
        ("snew", .strv "s")])) "arr" = some (.arrv [.numv 9]) :=
  ⟨(deepMerge_pointwise_semantics _ _ "only").1 rfl,
   (deepMerge_pointwise_semantics _ _ "snew").2.1 rfl,
   (deepMerge_pointwise_semantics _ _ "a").2.2.1 _ _ rfl rfl,
   (deepMerge_pointwise_semantics _ _ "n").2.2.2.1 _ _ rfl rfl rfl,
   (deepMerge_pointwise_semantics _ _ "arr").2.2.2.2 _ _ rfl rfl⟩

/-- Claim C6: merging any mapping with the empty mapping on the right returns
the mapping unchanged (structural copy): `merge(A, {}) = A`. -/
theorem deepMerge_empty_right_identity (A : JObj) :
    deepMerge (some A) (some []) = A :=
  deepMergeObj_nil_right A

/-- Claim C10: `deepMerge` is total on absent (undefined) inputs:
both absent gives the empty mapping, and one absent gives the other argument
back structurally unchanged. -/
theorem deepMerge_total_on_absent :
    deepMerge none none = ([] : JObj)
    ∧ (∀ B : JObj, deepMerge none (some B) = B)
    ∧ (∀ A : JObj, deepMerge (some A) none = A) :=
  ⟨deepMergeObj_nil_left [], fun B => deepMergeObj_nil_left B,
   fun A => deepMergeObj_nil_right A⟩

/-! ## Deduplication-loop lemmas (collision renaming) -/

theorem digitsVal_append_singleton (l : List Char) (c : Char) :
    digitsVal (l ++ [c]) = digitsVal l * 10 + digitVal c := by
  unfold digitsVal
  rw [List.foldl_append]
  rfl

theorem digitVal_ofNat {d : Nat} (h : d < 10) : digitVal (Char.ofNat (48 + d)) = d := by
  interval_cases d <;> rfl

theorem digitsVal_digitCharsAux {fuel n : Nat} (h : n < fuel) :
    digitsVal (digitCharsAux fuel n) = n := by
  induction fuel generalizing n with
  | zero => omega
  | succ f ih =>
    rw [digitCharsAux]
    by_cases hn : n < 10
    · rw [if_pos hn]
      show 0 * 10 + digitVal (Char.ofNat (48 + n)) = n
      rw [digitVal_ofNat hn]
      omega
    · rw [if_neg hn]
      rw [digitsVal_append_singleton,
        ih (by omega : n / 10 < f),
        digitVal_ofNat (Nat.mod_lt _ (by omega))]
      omega

theorem digitsVal_natToDigitChars (n : Nat) : digitsVal (natToDigitChars n) = n :=
  digitsVal_digitCharsAux (Nat.lt_succ_self n)

theorem natToDigitChars_ne_nil (n : Nat) : natToDigitChars n ≠ [] := by
  unfold natToDigitChars
  rw [digitCharsAux]
  split <;> simp

theorem natToDecimal_inj {a b : Nat} (h : natToDecimal a = natToDecimal b) : a = b := by
  unfold natToDecimal at h
  have hd : natToDigitChars a = natToDigitChars b := by injection h
  have ha := digitsVal_natToDigitChars a
  rw [hd, digitsVal_natToDigitChars b] at ha
  omega

theorem candidateName_inj (e nm : String) : Function.Injective (candidateName e nm) := by
  have hlen : ∀ j : Nat, candidateName e nm 0 ≠ candidateName e nm (j + 1) := by
    intro j h
    unfold candidateName at h
    have hdata := congrArg (fun s : String => s.data.length) h
    simp only [String.data_append, List.length_append] at hdata
    have hne := natToDigitChars_ne_nil (j + 1)
    have : (natToDecimal (j + 1)).data = natToDigitChars (j + 1) := rfl
    have hpos : 0 < (natToDecimal (j + 1)).data.length := by
      rw [this]
      cases hc : natToDigitChars (j + 1) with
      | nil => exact absurd hc hne
      | cons a l => simp
    omega
  intro i j h
  match i, j with
  | 0, 0 => rfl
  | 0, j + 1 => exact absurd h (hlen j)
  | i + 1, 0 => exact absurd h.symm (hlen i)
  | i + 1, j + 1 =>
    unfold candidateName at h
    have hdata := congrArg String.data h
    simp only [String.data_append] at hdata
    have hdec : (natToDecimal (i + 1)).data = (natToDecimal (j + 1)).data :=
      List.append_cancel_left hdata
    have : natToDecimal (i + 1) = natToDecimal (j + 1) := by
      cases hni : natToDecimal (i + 1) with
      | mk di =>
        cases hnj : natToDecimal (j + 1) with
        | mk dj =>
          rw [hni, hnj] at hdec
          simp at hdec
          rw [hdec]
    have := natToDecimal_inj this
    omega

theorem mapHas_iff_mem (m : CommandMap) (k : String) :
    mapHas m k = true ↔ k ∈ m.map Prod.fst := by
  unfold mapHas
  simp [List.any_eq_true, List.mem_map]

theorem exists_free_candidate (m : CommandMap) (e nm : String) :
    ∃ j, j ≤ m.length ∧ mapHas m (candidateName e nm j) = false := by
  by_contra hc
  push_neg at hc
  have hall : ∀ j ∈ Finset.range (m.length + 1),
      candidateName e nm j ∈ (m.map Prod.fst).toFinset := by
    intro j hj
    rw [List.mem_toFinset, ← mapHas_iff_mem]
    have := hc j (by simpa using Nat.lt_succ_iff.mp (Finset.mem_range.mp hj))
    cases h : mapHas m (candidateName e nm j) with
    | false => exact absurd h this
    | true => rfl
  have hcard : (m.map Prod.fst).toFinset.card < (Finset.range (m.length + 1)).card := by
    have h1 : (m.map Prod.fst).toFinset.card ≤ (m.map Prod.fst).length :=
      List.toFinset_card_le _
    simp only [List.length_map] at h1
    simp only [Finset.card_range]
    omega
  obtain ⟨x, hx, y, hy, hxy, heq⟩ :=
    Finset.exists_ne_map_eq_of_card_lt_of_maps_to hcard hall
  exact hxy (candidateName_inj e nm heq)

theorem renameWhile_minFree (m : CommandMap) (e nm : String) :
    ∀ fuel i,
      (∃ j, i ≤ j ∧ j < i + fuel ∧ mapHas m (candidateName e nm j) = false) →
      ∃ k, i ≤ k
        ∧ renameWhile m fuel (candidateName e nm i) e nm (i + 1) = candidateName e nm k
        ∧ mapHas m (candidateName e nm k) = false
        ∧ ∀ j, i ≤ j → j < k → mapHas m (candidateName e nm j) = true := by
  intro fuel
  induction fuel with
  | zero =>
    rintro i ⟨j, hij, hlt, _⟩
    omega
  | succ f ih =>
    rintro i ⟨j, hij, hlt, hfree⟩
    cases hi : mapHas m (candidateName e nm i) with
    | false =>
      have hstep : renameWhile m (f + 1) (candidateName e nm i) e nm (i + 1) =
          candidateName e nm i := by
        rw [renameWhile]
        simp [hi]
      exact ⟨i, Nat.le_refl i, hstep, hi, fun j2 h1 h2 => absurd h2 (by omega)⟩
    | true =>
      have hji : j ≠ i := by
        intro hji
        rw [hji] at hfree
        rw [hfree] at hi
        cases hi
      have hnext : candidateName e nm (i + 1) = e ++ "." ++ nm ++ natToDecimal (i + 1) := rfl
      obtain ⟨k, hk1, hk2, hk3, hk4⟩ := ih (i + 1) ⟨j, by omega, by omega, hfree⟩
      have hstep : renameWhile m (f + 1) (candidateName e nm i) e nm (i + 1) =
          candidateName e nm k := by
        rw [renameWhile]
        simp only [hi, if_true]
        rw [← hnext]
        exact hk2
      refine ⟨k, by omega, hstep, hk3, ?_⟩
      intro j2 h1 h2
      rcases Nat.eq_or_lt_of_le h1 with he | hlt2
      · rw [← he]; exact hi
      · exact hk4 j2 hlt2 h2

/-- Claim C1: in the deduplication step, a command carrying an `extensionName`
whose name is already a key of the map is renamed to the first unused
candidate among `extensionName.name`, `extensionName.name1`,
`extensionName.name2`, …; a command without an `extensionName` always keeps
its own name; and the step stores the command under exactly that final name. -/
theorem dedup_collision_renaming (m : CommandMap) (c : SlashCommand) :
    (∀ e, c.extensionName = some e → mapHas m c.name = true →
      ∃ k, dedupFinalName m c = candidateName e c.name k
        ∧ mapHas m (candidateName e c.name k) = false
        ∧ ∀ j, j < k → mapHas m (candidateName e c.name j) = true)
    ∧ (c.extensionName = none → dedupFinalName m c = c.name)
    ∧ dedupStep m c = mapSet m (dedupFinalName m c) (c.withName (dedupFinalName m c)) := by
  refine ⟨?_, ?_, rfl⟩
  · intro e he hhas
    obtain ⟨j, hj, hfree⟩ := exists_free_candidate m e c.name
    obtain ⟨k, hk0, hk2, hk3, hk4⟩ :=
      renameWhile_minFree m e c.name (m.length + 1) 0 ⟨j, by omega, by omega, hfree⟩
    refine ⟨k, ?_, hk3, fun j2 h2 => hk4 j2 (by omega) h2⟩
    unfold dedupFinalName
    rw [he]
    simp only [hhas, if_true]
    exact hk2
  · intro h
    unfold dedupFinalName
    rw [h]

/-- Witness for C1: with `help` and `myext.help` already taken, an extension
command `help` owned by `myext` is renamed to the first free candidate (which
has every earlier candidate taken), and a loader command without an
`extensionName` keeps its name even on collision. -/
theorem dedup_collision_renaming_witness :
    (∃ k,
      dedupFinalName
        [("help", .mk "help" "" "BUILT_IN" [] none []),
         ("myext.help", .mk "myext.help" "" "FILE" [] none [])]
        (.mk "help" "" "EXTENSION" [] (some "myext") [])
      = candidateName "myext" "help" k
      ∧ mapHas
          [("help", .mk "help" "" "BUILT_IN" [] none []),
           ("myext.help", .mk "myext.help" "" "FILE" [] none [])]
          (candidateName "myext" "help" k) = false
      ∧ ∀ j, j < k → mapHas
          [("help", .mk "help" "" "BUILT_IN" [] none []),
           ("myext.help", .mk "myext.help" "" "FILE" [] none [])]
          (candidateName "myext" "help" j) = true)
    ∧ dedupFinalName [("help", .mk "help" "" "BUILT_IN" [] none [])]
        (.mk "help" "" "FILE" [] none []) = "help" :=
  ⟨(dedup_collision_renaming _ _).1 "myext" rfl rfl,
   (dedup_collision_renaming _ _).2.1 rfl⟩

theorem mapSet_mem {m : CommandMap} {k : String} {v : SlashCommand}
    {x : String × SlashCommand} (hx : x ∈ mapSet m k v) : x ∈ m ∨ x = (k, v) := by
  unfold mapSet at hx
  split at hx
  · obtain ⟨p, hp, hpe⟩ := List.mem_map.mp hx
    by_cases hpk : (p.1 == k) = true
    · right
      rw [if_pos hpk] at hpe
      exact hpe.symm
    · left
      rw [if_neg hpk] at hpe
      rw [← hpe]
      exact hp
  · rcases List.mem_append.mp hx with h | h
    · exact Or.inl h
    · right
      simpa using h

theorem dedup_foldl_mem {cs : List SlashCommand} :
    ∀ {m : CommandMap} {x : String × SlashCommand}, x ∈ cs.foldl dedupStep m →
      x ∈ m ∨ ∃ c ∈ cs, ∃ n, x = (n, c.withName n) := by
  induction cs with
  | nil =>
    intro m x hx
    exact Or.inl hx
  | cons c cs ih =>
    intro m x hx
    rw [List.foldl_cons] at hx
    rcases ih hx with h | ⟨c', hc', n, hn⟩
    · rcases mapSet_mem h with h2 | h2
      · exact Or.inl h2
      · exact Or.inr ⟨c, List.mem_cons_self c cs, dedupFinalName m c, h2⟩
    · exact Or.inr ⟨c', List.mem_cons_of_mem c hc', n, hn⟩

/-- Claim C9: every binding of the deduplicated map stores a command whose
`name` field equals its key, and that command is a `{ ...cmd, name }`-copy of
some loader-supplied command (the loader's command object itself keeps its
original name and is never mutated). -/
theorem dedup_stored_name_eq_key (cs : List SlashCommand) (k : String) (v : SlashCommand)
    (h : (k, v) ∈ dedupCommands cs) :
    v.name = k ∧ ∃ c ∈ cs, v = c.withName k := by
  rcases dedup_foldl_mem h with h0 | ⟨c, hc, n, hn⟩
  · cases h0
  · have hk : k = n := congrArg Prod.fst hn
    have hv : v = c.withName n := congrArg Prod.snd hn
    subst hk
    refine ⟨?_, c, hc, hv⟩
    rw [hv]
    cases c with
    | mk a b d e f g => rfl

/-- Witness for C9 at a concrete input: the stored renamed copy of the
colliding extension command `clear` owned by `vim`. -/
theorem dedup_stored_name_eq_key_witness :
    (SlashCommand.withName (.mk "clear" "c2" "EXTENSION" [] (some "vim") []) "vim.clear").name
      = "vim.clear"
    ∧ ∃ c ∈ [SlashCommand.mk "clear" "c1" "BUILT_IN" [] none [],
             SlashCommand.mk "clear" "c2" "EXTENSION" [] (some "vim") []],
        SlashCommand.withName (.mk "clear" "c2" "EXTENSION" [] (some "vim") []) "vim.clear"
          = c.withName "vim.clear" :=
  dedup_stored_name_eq_key
    [SlashCommand.mk "clear" "c1" "BUILT_IN" [] none [],
     SlashCommand.mk "clear" "c2" "EXTENSION" [] (some "vim") []]
    "vim.clear"
    (SlashCommand.withName (.mk "clear" "c2" "EXTENSION" [] (some "vim") []) "vim.clear")
    (by rw [show dedupCommands
        [SlashCommand.mk "clear" "c1" "BUILT_IN" [] none [],
         SlashCommand.mk "clear" "c2" "EXTENSION" [] (some "vim") []]
      = [("clear", SlashCommand.withName (.mk "clear" "c1" "BUILT_IN" [] none []) "clear"),
         ("vim.clear", SlashCommand.withName (.mk "clear" "c2" "EXTENSION" [] (some "vim") []) "vim.clear")]
      from rfl]
        exact List.mem_cons_of_mem _ (List.mem_cons_self _ _))

theorem mapSet_keys (m : CommandMap) (k : String) (v : SlashCommand) :
    (mapSet m k v).map Prod.fst =
      if mapHas m k then m.map Prod.fst else m.map Prod.fst ++ [k] := by
  unfold mapSet
  split
  · rw [List.map_map]
    apply List.map_congr_left
    intro p _
    by_cases hp : (p.1 == k) = true
    · have : p.1 = k := by simpa using hp
      simp [hp, Function.comp, this]
    · simp [hp, Function.comp]
  · simp

theorem dedup_keys_nodup (cs : List SlashCommand) :
    ((dedupCommands cs).map Prod.fst).Nodup := by
  suffices h : ∀ m : CommandMap, (m.map Prod.fst).Nodup →
      ((cs.foldl dedupStep m).map Prod.fst).Nodup from h [] (by simp)
  induction cs with
  | nil =>
    intro m hm
    exact hm
  | cons c cs ih =>
    intro m hm
    rw [List.foldl_cons]
    apply ih
    unfold dedupStep
    rw [mapSet_keys]
    cases hh : mapHas m (dedupFinalName m c) with
    | true => simpa using hm
    | false =>
      simp only [Bool.false_eq_true, if_false]
      rw [List.nodup_append]
      refine ⟨hm, List.nodup_singleton _, ?_⟩
      rw [List.disjoint_singleton]
      intro ha
      have : mapHas m (dedupFinalName m c) = true := (mapHas_iff_mem m _).mpr ha
      rw [this] at hh
      cases hh

/-- Amended claim C2: in every published snapshot, no two top-level commands
share a `name` (the deduplicated map's keys are pairwise distinct and each
stored command is named after its key).  The original claim's additional
guarantee about `altNames` does not hold — see the counterexample. -/
theorem snapshot_names_nodup (cs : List SlashCommand) :
    ((publishSnapshot cs).map SlashCommand.name).Nodup := by
  have h1 : (publishSnapshot cs).map SlashCommand.name = (dedupCommands cs).map Prod.fst := by
    unfold publishSnapshot
    rw [List.map_map]
    apply List.map_congr_left
    intro p hp
    cases p with
    | mk k v =>
      have := (dedup_stored_name_eq_key cs k v hp).1
      simpa using this
  rw [h1]
  exact dedup_keys_nodup cs

/-- Counterexample to claim C2 as stated: the deduplication loop never
inspects `altNames`, so a published snapshot can hold one top-level command
whose alias equals another top-level command's name (here the alias `b` of
command `a` collides with the command named `b`). -/
theorem snapshot_altName_collision_counterexample :
    ∃ c₁ ∈ publishSnapshot
        [.mk "a" "" "BUILT_IN" ["b"] none [], .mk "b" "" "BUILT_IN" [] none []],
      ∃ c₂ ∈ publishSnapshot
        [.mk "a" "" "BUILT_IN" ["b"] none [], .mk "b" "" "BUILT_IN" [] none []],
        c₁.name ≠ c₂.name ∧ c₂.name ∈ c₁.altNames := by
  refine ⟨.mk "a" "" "BUILT_IN" ["b"] none [], ?_, .mk "b" "" "BUILT_IN" [] none [], ?_, ?_, ?_⟩
  · exact List.mem_cons_self _ _
  · exact List.mem_cons_of_mem _ (List.mem_cons_self _ _)
  · decide
  · decide

/-! ## Loader failure isolation (C3) -/

theorem collectResults_foldl (results : List LoaderResult) :
    ∀ acc : List SlashCommand × List RejectReason,
      results.foldl
        (fun acc r =>
          match r with
          | .fulfilled cs => (acc.1 ++ cs, acc.2)
          | .rejected reason =>
            if isAbortReason reason then acc else (acc.1, acc.2 ++ [reason]))
        acc
      = (acc.1 ++ (results.filterMap
            (fun r => match r with
              | LoaderResult.fulfilled cs => some cs
              | LoaderResult.rejected _ => none)).flatten,
         acc.2 ++ results.filterMap
            (fun r => match r with
              | LoaderResult.rejected reason =>
                if isAbortReason reason then none else some reason
              | LoaderResult.fulfilled _ => none)) := by
  induction results with
  | nil =>
    intro acc
    simp
  | cons r rs ih =>
    intro acc
    rw [List.foldl_cons]
    cases r with
    | fulfilled cs =>
      rw [ih]
      simp
    | rejected reason =>
      cases hab : isAbortReason reason with
      | true =>
        simp only [hab, if_true]
        rw [ih]
        simp [hab]
      | false =>
        simp only [hab, Bool.false_eq_true, if_false]
        rw [ih]
        simp [hab]

theorem filterMap_fulfilled_filter (results : List LoaderResult) :
    (results.filter LoaderResult.isFulfilled).filterMap
        (fun r => match r with
          | LoaderResult.fulfilled cs => some cs
          | LoaderResult.rejected _ => none)
      = results.filterMap
        (fun r => match r with
          | LoaderResult.fulfilled cs => some cs
          | LoaderResult.rejected _ => none) := by
  induction results with
  | nil => rfl
  | cons r rs ih =>
    cases r with
    | fulfilled cs =>
      simp only [List.filter_cons, LoaderResult.isFulfilled, if_true, List.filterMap_cons]
      rw [ih]
    | rejected reason =>
      simp only [List.filter_cons, LoaderResult.isFulfilled, Bool.false_eq_true, if_false,
        List.filterMap_cons]
      rw [ih]

/-- Claim C3: after the loaders settle (with the reload's signal not aborted),
the aggregated command list is exactly the concatenation of the fulfilled
loaders' commands — a rejected loader removes nothing from the other loaders
and contributes no commands of its own (the aggregate equals the aggregate of
the fulfilled results alone) — and the failure log holds exactly the
rejections that are not abort-flavored: a rejection that is an `Error` named
`AbortError` (the cancellation of the reload's signal) is silently skipped,
every other rejection is logged. -/
theorem collectResults_isolation (results : List LoaderResult) :
    (collectResults results).1
      = (results.filterMap
          (fun r => match r with
            | LoaderResult.fulfilled cs => some cs
            | LoaderResult.rejected _ => none)).flatten
    ∧ (collectResults results).1 = (collectResults (results.filter LoaderResult.isFulfilled)).1
    ∧ (collectResults results).2
      = results.filterMap
          (fun r => match r with
            | LoaderResult.rejected reason =>
              if isAbortReason reason then none else some reason
            | LoaderResult.fulfilled _ => none)
    ∧ (∀ reason, isAbortReason reason = true →
        reason ∉ (collectResults results).2) := by
  have hbase := collectResults_foldl results ([], [])
  have hfiltered := collectResults_foldl (results.filter LoaderResult.isFulfilled) ([], [])
  have h1 : (collectResults results).1
      = (results.filterMap
          (fun r => match r with
            | LoaderResult.fulfilled cs => some cs
            | LoaderResult.rejected _ => none)).flatten := by
    rw [show collectResults results
        = results.foldl (fun acc r =>
            match r with
            | .fulfilled cs => (acc.1 ++ cs, acc.2)
            | .rejected reason =>
              if isAbortReason reason then acc else (acc.1, acc.2 ++ [reason])) ([], [])
      from rfl, hbase]
    simp
  have h2 : (collectResults results).2
      = results.filterMap
          (fun r => match r with
            | LoaderResult.rejected reason =>
              if isAbortReason reason then none else some reason
            | LoaderResult.fulfilled _ => none) := by
    rw [show collectResults results
        = results.foldl (fun acc r =>
            match r with
            | .fulfilled cs => (acc.1 ++ cs, acc.2)
            | .rejected reason =>
              if isAbortReason reason then acc else (acc.1, acc.2 ++ [reason])) ([], [])
      from rfl, hbase]
    simp
  have h1f : (collectResults (results.filter LoaderResult.isFulfilled)).1
      = ((results.filter LoaderResult.isFulfilled).filterMap
          (fun r => match r with
            | LoaderResult.fulfilled cs => some cs
            | LoaderResult.rejected _ => none)).flatten := by
    rw [show collectResults (results.filter LoaderResult.isFulfilled)
        = (results.filter LoaderResult.isFulfilled).foldl (fun acc r =>
            match r with
            | .fulfilled cs => (acc.1 ++ cs, acc.2)
            | .rejected reason =>
              if isAbortReason reason then acc else (acc.1, acc.2 ++ [reason])) ([], [])
      from rfl, hfiltered]
    simp
  refine ⟨h1, ?_, h2, ?_⟩
  · rw [h1, h1f, filterMap_fulfilled_filter]
  · intro reason hab hmem
    rw [h2] at hmem
    obtain ⟨r, _, hr⟩ := List.mem_filterMap.mp hmem
    cases r with
    | fulfilled cs => cases hr
    | rejected reason2 =>
      cases hab2 : isAbortReason reason2 with
      | true => simp [hab2] at hr
      | false =>
        simp only [hab2, Bool.false_eq_true, if_false, Option.some.injEq] at hr
        subst hr
        rw [hab] at hab2
        cases hab2

/-- Witness for C3: an `AbortError` rejection sitting between two fulfilled
loaders is not logged (and, per the theorem, removes nothing from the other
loaders' aggregate). -/
theorem collectResults_isolation_witness :
    ({ isErrorInstance := true, errName := "AbortError" } : RejectReason)
      ∉ (collectResults
          [LoaderResult.fulfilled [.mk "help" "" "BUILT_IN" [] none []],
           LoaderResult.rejected { isErrorInstance := true, errName := "AbortError" },
           LoaderResult.rejected { isErrorInstance := true, errName := "TypeError" },
           LoaderResult.fulfilled [.mk "commit" "" "FILE" [] none []]]).2 :=
  (collectResults_isolation
    [LoaderResult.fulfilled [.mk "help" "" "BUILT_IN" [] none []],
     LoaderResult.rejected { isErrorInstance := true, errName := "AbortError" },
     LoaderResult.rejected { isErrorInstance := true, errName := "TypeError" },
     LoaderResult.fulfilled [.mk "commit" "" "FILE" [] none []]]).2.2.2
    { isErrorInstance := true, errName := "AbortError" } rfl

/-! ## Overlapping reloads (C4) -/

/-- Claim C4: when a second internally-signalled `reloadCommands` starts while
a first one is in flight, the second call's prologue aborts the first call's
internally-owned controller (which was not aborted before); the superseded
first call, resuming after its loaders settle, observes its aborted signal and
returns leaving the published commands, the notification count — the whole
state — untouched; a call supplied with an external signal neither aborts nor
replaces the internal controller. -/
theorem reload_supersede_spec (st0 : AggState) (extAborted : Nat → Bool)
    (results1 : List LoaderResult)
    (hwf : ∀ g ∈ st0.abortedGens, g < st0.nextGen)
    (hcur : ∀ g, st0.currentCtrl = some g → g < st0.nextGen) :
    (reloadPrologue none st0).1 = AggSignal.internalSig st0.nextGen
    ∧ sigAborted (reloadPrologue none st0).2 extAborted (reloadPrologue none st0).1 = false
    ∧ sigAborted (reloadPrologue none (reloadPrologue none st0).2).2 extAborted
        (reloadPrologue none st0).1 = true
    ∧ reloadEpilogue (reloadPrologue none st0).1 extAborted results1
        (reloadPrologue none (reloadPrologue none st0).2).2
      = (reloadPrologue none (reloadPrologue none st0).2).2
    ∧ (∀ i, reloadPrologue (some i) st0 = (AggSignal.externalSig i, st0)) := by
  have hp1 : (reloadPrologue none st0).1 = AggSignal.internalSig st0.nextGen := by
    unfold reloadPrologue
    rfl
  have hst1ab : (reloadPrologue none st0).2.abortedGens =
      match st0.currentCtrl with
      | some g => st0.abortedGens ++ [g]
      | none => st0.abortedGens := by
    unfold reloadPrologue
    rfl
  have hst1cur : (reloadPrologue none st0).2.currentCtrl = some st0.nextGen := by
    unfold reloadPrologue
    rfl
  have hst1next : (reloadPrologue none st0).2.nextGen = st0.nextGen + 1 := by
    unfold reloadPrologue
    rfl
  have hnotab : sigAborted (reloadPrologue none st0).2 extAborted
      (AggSignal.internalSig st0.nextGen) = false := by
    unfold sigAborted
    rw [hst1ab]
    cases hc : st0.currentCtrl with
    | none =>
      simp only [List.elem_eq_mem, decide_eq_false_iff_not]
      intro hmem
      exact absurd (hwf _ hmem) (by omega)
    | some g =>
      simp only [List.elem_eq_mem, decide_eq_false_iff_not, List.mem_append]
      rintro (hmem | hmem)
      · exact absurd (hwf _ hmem) (by omega)
      · have : st0.nextGen = g := by simpa using hmem
        exact absurd (hcur g hc) (by omega)
  have hab2aux : (reloadPrologue none (reloadPrologue none st0).2).2.abortedGens =
      (reloadPrologue none st0).2.abortedGens ++ [st0.nextGen] := by
    conv =>
      lhs
      rw [reloadPrologue]
    rw [hst1cur]
  have hab2 : sigAborted (reloadPrologue none (reloadPrologue none st0).2).2 extAborted
      (AggSignal.internalSig st0.nextGen) = true := by
    unfold sigAborted
    rw [hab2aux]
    simp
  refine ⟨hp1, ?_, ?_, ?_, fun i => rfl⟩
  · rw [hp1]
    exact hnotab
  · rw [hp1]
    exact hab2
  · rw [hp1]
    unfold reloadEpilogue
    rw [hab2]
    simp

/-! ## Listener registry (C8) -/

theorem subStep_nodup {ls : List Nat} (h : ls.Nodup) (e : SubEvent) :
    (subStep ls e).Nodup := by
  cases e with
  | sub l =>
    simp only [subStep]
    by_cases hl : l ∈ ls
    · rw [if_pos hl]
      exact h
    · rw [if_neg hl]
      rw [List.nodup_append]
      exact ⟨h, List.nodup_singleton _, by
        rw [List.disjoint_singleton]
        exact hl⟩
  | unsub l => exact List.Nodup.erase l h
  | publish => exact h

theorem subStep_mem {ls : List Nat} {l : Nat} (hmem : l ∈ ls) :
    ∀ e : SubEvent, e ≠ .unsub l → l ∈ subStep ls e := by
  intro e he
  cases e with
  | sub l2 =>
    simp only [subStep]
    by_cases hl : l2 ∈ ls
    · rw [if_pos hl]; exact hmem
    · rw [if_neg hl]
      exact List.mem_append_left _ hmem
  | unsub l2 =>
    have hne : l ≠ l2 := fun hc => he (by rw [hc])
    exact (List.mem_erase_of_ne hne).mpr hmem
  | publish => exact hmem

theorem subStep_not_mem {ls : List Nat} {l : Nat} (hmem : l ∉ ls) :
    ∀ e : SubEvent, e ≠ .sub l → l ∉ subStep ls e := by
  intro e he
  cases e with
  | sub l2 =>
    simp only [subStep]
    by_cases hl : l2 ∈ ls
    · rw [if_pos hl]; exact hmem
    · rw [if_neg hl]
      intro hc
      rcases List.mem_append.mp hc with h | h
      · exact hmem h
      · have : l = l2 := by simpa using h
        exact he (by rw [this])
  | unsub l2 =>
    intro hc
    exact hmem (List.mem_of_mem_erase hc)
  | publish => exact hmem

theorem invocations_of_subscribed (l : Nat) :
    ∀ (es : List SubEvent) (ls : List Nat), ls.Nodup → l ∈ ls →
      SubEvent.sub l ∉ es → SubEvent.unsub l ∉ es →
      invocations l ls es = publishCount es := by
  intro es
  induction es with
  | nil =>
    intro ls _ _ _ _
    rfl
  | cons e es ih =>
    intro ls hnd hmem hs hu
    have hs' : SubEvent.sub l ∉ es := fun hc => hs (List.mem_cons_of_mem _ hc)
    have hu' : SubEvent.unsub l ∉ es := fun hc => hu (List.mem_cons_of_mem _ hc)
    have hes : e ≠ SubEvent.sub l := fun hc => hs (hc ▸ List.mem_cons_self _ _)
    have heu : e ≠ SubEvent.unsub l := fun hc => hu (hc ▸ List.mem_cons_self _ _)
    have hstep := ih (subStep ls e) (subStep_nodup hnd e) (subStep_mem hmem e heu) hs' hu'
    cases e with
    | sub l2 =>
      have hred : invocations l ls (SubEvent.sub l2 :: es)
          = 0 + invocations l (subStep ls (.sub l2)) es := rfl
      rw [hred, hstep]
      unfold publishCount
      rw [List.count_cons]
      simp
    | unsub l2 =>
      have hred : invocations l ls (SubEvent.unsub l2 :: es)
          = 0 + invocations l (subStep ls (.unsub l2)) es := rfl
      rw [hred, hstep]
      unfold publishCount
      rw [List.count_cons]
      simp
    | publish =>
      have hred : invocations l ls (SubEvent.publish :: es)
          = ls.count l + invocations l (subStep ls .publish) es := rfl
      rw [hred, hstep, List.count_eq_one_of_mem hnd hmem]
      unfold publishCount
      rw [List.count_cons]
      simp [Nat.add_comm]

theorem invocations_of_unsubscribed (l : Nat) :
    ∀ (es : List SubEvent) (ls : List Nat), l ∉ ls → SubEvent.sub l ∉ es →
      invocations l ls es = 0 := by
  intro es
  induction es with
  | nil =>
    intro ls _ _
    rfl
  | cons e es ih =>
    intro ls hmem hs
    have hs' : SubEvent.sub l ∉ es := fun hc => hs (List.mem_cons_of_mem _ hc)
    have hes : e ≠ SubEvent.sub l := fun hc => hs (hc ▸ List.mem_cons_self _ _)
    have hstep := ih (subStep ls e) (subStep_not_mem hmem e hes) hs'
    cases e with
    | sub l2 =>
      have hred : invocations l ls (SubEvent.sub l2 :: es)
          = 0 + invocations l (subStep ls (.sub l2)) es := rfl
      rw [hred, hstep]
    | unsub l2 =>
      have hred : invocations l ls (SubEvent.unsub l2 :: es)
          = 0 + invocations l (subStep ls (.unsub l2)) es := rfl
      rw [hred, hstep]
    | publish =>
      have hred : invocations l ls (SubEvent.publish :: es)
          = ls.count l + invocations l (subStep ls .publish) es := rfl
      rw [hred, hstep, List.count_eq_zero_of_not_mem hmem]

theorem runEvents_nodup {ls : List Nat} (h : ls.Nodup) (es : List SubEvent) :
    (runEvents ls es).Nodup := by
  induction es generalizing ls with
  | nil => exact h
  | cons e es ih => exact ih (subStep_nodup h e)

/-- Claim C8: starting from any registry state, a freshly subscribed listener
is invoked exactly once per published snapshot for as long as the events touch
other listeners only; once its unsubscribe capability runs, it is never
invoked again (by any later events that do not re-subscribe it). -/
theorem subscribe_notification_spec (ls : List Nat) (l : Nat) (es1 es2 : List SubEvent)
    (hnd : ls.Nodup)
    (h1s : SubEvent.sub l ∉ es1) (h1u : SubEvent.unsub l ∉ es1)
    (h2s : SubEvent.sub l ∉ es2) :
    invocations l (subStep ls (.sub l)) es1 = publishCount es1
    ∧ invocations l (subStep (runEvents (subStep ls (.sub l)) es1) (.unsub l)) es2 = 0 := by
  have hsubnd : (subStep ls (.sub l)).Nodup := subStep_nodup hnd _
  have hsubmem : l ∈ subStep ls (.sub l) := by
    simp only [subStep]
    by_cases hl : l ∈ ls
    · rw [if_pos hl]; exact hl
    · rw [if_neg hl]
      exact List.mem_append_right _ (List.mem_singleton_self l)
  constructor
  · exact invocations_of_subscribed l es1 _ hsubnd hsubmem h1s h1u
  · have hrun : (runEvents (subStep ls (.sub l)) es1).Nodup := runEvents_nodup hsubnd es1
    have hout : l ∉ subStep (runEvents (subStep ls (.sub l)) es1) (.unsub l) := by
      simp only [subStep]
      exact List.Nodup.not_mem_erase hrun
    exact invocations_of_unsubscribed l es2 _ hout h2s

/-- Witness for C8: listener `7` subscribed into an empty registry is invoked
once per each of two published snapshots, and never after unsubscribing. -/
theorem subscribe_notification_spec_witness :
    invocations 7 (subStep [] (.sub 7)) [.publish, .sub 3, .publish] = 2
    ∧ invocations 7
        (subStep (runEvents (subStep [] (.sub 7)) [.publish, .sub 3, .publish]) (.unsub 7))
        [.publish, .publish] = 0 := by
  have h := subscribe_notification_spec [] 7 [.publish, .sub 3, .publish] [.publish, .publish]
    (by decide) (by decide) (by decide) (by decide)
  exact ⟨h.1, h.2⟩

/-! ## Command resolution (C7) -/

theorem findCommand_mem {cmds : List SlashCommand} {t : String} {c : SlashCommand}
    (h : findCommand cmds t = some c) : c ∈ cmds := by
  unfold findCommand at h
  exact List.mem_of_find?_eq_some h

theorem descendCommands_spec (cmds : List SlashCommand) :
    ∀ (toks : List String) (c : SlashCommand) (path : List String),
      ChainTo cmds c path →
      ∃ k, k ≤ toks.length
        ∧ (descendCommands c path toks).2.2 = toks.drop k
        ∧ ChainTo cmds (descendCommands c path toks).1 (descendCommands c path toks).2.1
        ∧ (descendCommands c path toks).2.1.length = path.length + k
        ∧ (∃ q, (descendCommands c path toks).2.1 = path ++ q)
        ∧ (∀ x xs, toks.drop k = x :: xs →
            findCommand (descendCommands c path toks).1.subCommands x = none) := by
  intro toks
  induction toks with
  | nil =>
    intro c path hchain
    have hred : descendCommands c path [] = (c, path, []) := by rw [descendCommands]
    refine ⟨0, Nat.zero_le _, ?_, ?_, ?_, ⟨[], ?_⟩, ?_⟩
    · rw [hred]
      rfl
    · rw [hred]; exact hchain
    · rw [hred]; simp
    · rw [hred]; simp
    · intro x xs h
      cases h
  | cons t rest ih =>
    intro c path hchain
    cases hf : findCommand c.subCommands t with
    | none =>
      have hred : descendCommands c path (t :: rest) = (c, path, t :: rest) := by
        rw [descendCommands]
        simp only [hf]
      refine ⟨0, Nat.zero_le _, ?_, ?_, ?_, ⟨[], by simp [hred]⟩, ?_⟩
      · rw [hred]
        rfl
      · rw [hred]; exact hchain
      · rw [hred]; simp
      · intro x xs h
        rw [hred]
        simp only [List.drop_zero] at h
        injection h with h1 h2
        subst h1
        exact hf
    | some child =>
      have hchild : child ∈ c.subCommands := findCommand_mem hf
      have hchain2 : ChainTo cmds child (path ++ [child.name]) := ChainTo.child hchain hchild
      obtain ⟨k, hk1, hk2, hk3, hk4, ⟨q, hq⟩, hk6⟩ := ih child (path ++ [child.name]) hchain2
      have hred : descendCommands c path (t :: rest)
          = descendCommands child (path ++ [child.name]) rest := by
        rw [descendCommands]
        simp only [hf]
      refine ⟨k + 1, by simpa using Nat.succ_le_succ hk1, ?_, ?_, ?_, ?_, ?_⟩
      · rw [hred, List.drop_succ_cons]
        exact hk2
      · rw [hred]
        exact hk3
      · rw [hred, hk4]
        simp [List.length_append]
        omega
      · rw [hred]
        exact ⟨child.name :: q, by rw [hq]; simp⟩
      · intro x xs h
        rw [hred]
        rw [List.drop_succ_cons] at h
        exact hk6 x xs h

/-- Claim C7 — stated against the spec-modelled resolver: resolution trims the
input, requires the `/` prefix, splits the remainder into whitespace-separated
tokens, and (1) yields no command and empty arguments when the prefix is
absent or no tokens remain; (2) when the first token resolves to no top-level
command by name or alias, yields no command, an empty path and the whole
token text as arguments; (3) when the first token resolves, descends while
tokens match, returning a deepest command reachable by an actual
`subCommands` chain from the root set whose canonical path is the chain's
names starting with the resolved root command's name, with the unconsumed
tokens (one consumed per path entry) re-joined as the argument string, and
the next unconsumed token (if any) matching none of the final command's
subcommands. -/
theorem parseSlashCommand_resolution_spec (query : String) (cmds : List SlashCommand) :
    ((∀ afterSlash, trimChars query.data ≠ '/' :: afterSlash) →
        parseSlashCommand query cmds = ⟨none, [], ""⟩)
    ∧ (∀ afterSlash, trimChars query.data = '/' :: afterSlash →
        (tokensAux afterSlash [] = [] → parseSlashCommand query cmds = ⟨none, [], ""⟩)
        ∧ (∀ t rest, tokensAux afterSlash [] = t :: rest →
            (findCommand cmds t = none →
              parseSlashCommand query cmds = ⟨none, [], joinTokens (t :: rest)⟩)
            ∧ (∀ c, findCommand cmds t = some c →
                ∃ d p, parseSlashCommand query cmds
                    = ⟨some d, p, joinTokens ((t :: rest).drop p.length)⟩
                  ∧ ChainTo cmds d p
                  ∧ p.head? = some c.name
                  ∧ 1 ≤ p.length ∧ p.length ≤ (t :: rest).length
                  ∧ (∀ x xs, (t :: rest).drop p.length = x :: xs →
                      findCommand d.subCommands x = none)))) := by
  constructor
  · intro hno
    unfold parseSlashCommand
    cases htr : trimChars query.data with
    | nil => rfl
    | cons ch chs =>
      have hch : ch ≠ '/' := fun hc => hno chs (by rw [← hc]; exact htr)
      split
      · rename_i afterSlash heq
        injection heq with h1 h2
        exact absurd h1 hch
      · rfl
  · intro afterSlash htr
    constructor
    · intro htok
      unfold parseSlashCommand
      rw [htr]
      simp only [htok]
    · intro t rest htok
      constructor
      · intro hf
        unfold parseSlashCommand
        rw [htr]
        simp only [htok, hf]
      · intro c hf
        have hchain0 : ChainTo cmds c [c.name] := ChainTo.head (findCommand_mem hf)
        obtain ⟨k, hk1, hk2, hk3, hk4, ⟨q, hq⟩, hk6⟩ :=
          descendCommands_spec cmds rest c [c.name] hchain0
        refine ⟨(descendCommands c [c.name] rest).1,
                (descendCommands c [c.name] rest).2.1, ?_, hk3, ?_, ?_, ?_, ?_⟩
        · unfold parseSlashCommand
          rw [htr]
          simp only [htok, hf]
          have hlen : (descendCommands c [c.name] rest).2.1.length = k + 1 := by
            rw [hk4]; simp [Nat.add_comm]
          rw [hlen]
          rw [List.drop_succ_cons, ← hk2]
        · rw [hq]
          rfl
        · rw [hk4]
          simp
        · rw [hk4]
          simp
          omega
        · intro x xs hx
          have hlen : (descendCommands c [c.name] rest).2.1.length = k + 1 := by
            rw [hk4]; simp [Nat.add_comm]
          rw [hlen, List.drop_succ_cons] at hx
          exact hk6 x xs hx

/-- Witness for C4: a fresh service (no controller yet, nothing aborted) whose
first reload is superseded by a second one; the superseded epilogue leaves the
state untouched. -/
theorem reload_supersede_spec_witness :
    reloadEpilogue (reloadPrologue none ⟨0, none, [], [], 0⟩).1 (fun _ => false) []
        (reloadPrologue none (reloadPrologue none ⟨0, none, [], [], 0⟩).2).2
      = (reloadPrologue none (reloadPrologue none ⟨0, none, [], [], 0⟩).2).2 :=
  (reload_supersede_spec ⟨0, none, [], [], 0⟩ (fun _ => false) []
    (by simp) (by simp)).2.2.2.1

/-- Witness for C7, the partial-resolution test vector
`/memory unknownsub some args` of commands.test.ts: the resolver stops at
`memory` and returns the unconsumed tokens as arguments. -/
theorem parseSlashCommand_resolution_spec_witness :
    ∃ d p,
      parseSlashCommand "/memory unknownsub some args"
          [SlashCommand.mk "help" "Show help" "BUILT_IN" [] none [],
           SlashCommand.mk "commit" "Commit changes" "FILE" [] none [],
           SlashCommand.mk "memory" "Manage memory" "BUILT_IN" ["mem"] none
             [SlashCommand.mk "add" "Add to memory" "BUILT_IN" [] none [],
              SlashCommand.mk "clear" "Clear memory" "BUILT_IN" ["c"] none []]]
        = ⟨some d, p, joinTokens (("memory" :: ["unknownsub", "some", "args"]).drop p.length)⟩
      ∧ ChainTo
          [SlashCommand.mk "help" "Show help" "BUILT_IN" [] none [],
           SlashCommand.mk "commit" "Commit changes" "FILE" [] none [],
           SlashCommand.mk "memory" "Manage memory" "BUILT_IN" ["mem"] none
             [SlashCommand.mk "add" "Add to memory" "BUILT_IN" [] none [],
              SlashCommand.mk "clear" "Clear memory" "BUILT_IN" ["c"] none []]]
          d p
      ∧ p.head? = some (SlashCommand.mk "memory" "Manage memory" "BUILT_IN" ["mem"] none
             [SlashCommand.mk "add" "Add to memory" "BUILT_IN" [] none [],
              SlashCommand.mk "clear" "Clear memory" "BUILT_IN" ["c"] none []]).name
      ∧ 1 ≤ p.length ∧ p.length ≤ ("memory" :: ["unknownsub", "some", "args"]).length
      ∧ (∀ x xs, ("memory" :: ["unknownsub", "some", "args"]).drop p.length = x :: xs →
          findCommand d.subCommands x = none) :=
  (((parseSlashCommand_resolution_spec "/memory unknownsub some args"
      [SlashCommand.mk "help" "Show help" "BUILT_IN" [] none [],
       SlashCommand.mk "commit" "Commit changes" "FILE" [] none [],
       SlashCommand.mk "memory" "Manage memory" "BUILT_IN" ["mem"] none
         [SlashCommand.mk "add" "Add to memory" "BUILT_IN" [] none [],
          SlashCommand.mk "clear" "Clear memory" "BUILT_IN" ["c"] none []]]).2
    "memory unknownsub some args".data rfl).2
    "memory" ["unknownsub", "some", "args"] rfl).2
    (SlashCommand.mk "memory" "Manage memory" "BUILT_IN" ["mem"] none
       [SlashCommand.mk "add" "Add to memory" "BUILT_IN" [] none [],
        SlashCommand.mk "clear" "Clear memory" "BUILT_IN" ["c"] none []]) rfl
